import Mathlib

/-!
# Verification of the AndomaV2 move-generation core (`src/movegen.py`)

This file shallowly embeds the search core of the repository and settles the
frozen claims about it.

The embedding has three layers, reflecting how the Python code behaves:

* **Pure search layer** (`Game`, `minimax`, `minimax_root_pair`): the alpha-beta
  search of `minimax` (movegen.py lines 163-221) and the root driver
  `minimax_root` (lines 135-160), with the Board Model (the external
  `python-chess` library) and the Static Evaluator (`eval.evaluate_board`,
  external to this repository) abstracted as oracles, and with the Move Orderer
  (`get_ordered_moves`) abstracted as an oracle producing each node's move list.
  The concrete `get_ordered_moves` in the source in fact always raises a
  `TypeError` (see the exception layer below); the claims about the search
  logic are settled for the search code with ordering treated as returning
  normally, which is how those claims are phrased.

* **Exception layer with board state** (`GameE`, `minimaxE`, `minimax_rootE`):
  the same control flow with the board modelled as explicit mutable state (a
  current position plus a push history) and with failures of the external
  evaluator propagated as Python exceptions.  This layer shows what happens to
  the board stack on error paths, where the source has no try/finally.

* **As-written layer** (`BoardB`, `get_ordered_moves`, `minimaxA`,
  `minimax_rootA`, `next_moveA`): a faithful translation of the code as it is,
  including the Python call-semantics failure of `get_ordered_moves` (lines
  38-53): the feature functions are declared with two required positional
  parameters `(board, color)` but invoked with the board alone, which raises
  `TypeError` before any function body runs.

Scores: the Python code mixes `int` scores with `float("inf")` /
`-float("inf")` sentinels.  `Score` models exactly these values: an integer, or
one of the two infinities; comparison, `max`, `min`, and the mate-distance
shift agree with the Python semantics of those operations on this subset of
floats (note `inf - 1 = inf` and `-inf + 1 = -inf` in Python, matched by
`Score.sub1` / `Score.add1`).
-/

/-- A search score: an integer, or one of the two float infinities used by the
source as sentinels (`-float("inf")`, `float("inf")`). -/
inductive Score where
  | negInf : Score
  | fin : ℤ → Score
  | posInf : Score
deriving DecidableEq, Repr

/-- Comparison on scores, agreeing with Python comparison of ints and
infinities. -/
def Score.leB : Score → Score → Bool
  | .negInf, _ => true
  | .fin _, .negInf => false
  | .fin a, .fin b => a ≤ b
  | .fin _, .posInf => true
  | .posInf, .posInf => true
  | .posInf, _ => false

instance : LE Score := ⟨fun a b => Score.leB a b = true⟩

instance : LT Score := ⟨fun a b => a ≤ b ∧ ¬ b ≤ a⟩

theorem Score.le_def (a b : Score) : a ≤ b ↔ Score.leB a b = true := Iff.rfl

instance Score.decLE (a b : Score) : Decidable (a ≤ b) :=
  inferInstanceAs (Decidable (Score.leB a b = true))

instance Score.instLinearOrder : LinearOrder Score where
  le_refl a := by cases a <;> simp [Score.le_def, Score.leB]
  le_trans a b c := by
    cases a <;> cases b <;> cases c <;>
      simp [Score.le_def, Score.leB] <;> omega
  le_antisymm a b := by
    cases a <;> cases b <;>
      simp [Score.le_def, Score.leB] <;> omega
  le_total a b := by
    cases a <;> cases b <;>
      simp [Score.le_def, Score.leB] <;> omega
  lt_iff_le_not_le a b := Iff.rfl
  decidableLE := Score.decLE

theorem Score.negInf_le (s : Score) : Score.negInf ≤ s := by
  cases s <;> simp [Score.le_def, Score.leB]

theorem Score.le_posInf (s : Score) : s ≤ Score.posInf := by
  cases s <;> simp [Score.le_def, Score.leB]

theorem Score.le_negInf_iff (s : Score) : s ≤ Score.negInf ↔ s = Score.negInf := by
  cases s <;> simp [Score.le_def, Score.leB]

theorem Score.posInf_le_iff (s : Score) : Score.posInf ≤ s ↔ s = Score.posInf := by
  cases s <;> simp [Score.le_def, Score.leB]

theorem Score.negInf_lt_posInf : (Score.negInf : Score) < Score.posInf := by
  constructor
  · exact Score.negInf_le _
  · simp [Score.le_def, Score.leB]

/-- movegen.py line 18. -/
def MATE_SCORE : ℤ := 1000000000

/-- movegen.py line 19. -/
def MATE_THRESHOLD : ℤ := 999000000

/-- Python `x - 1` on a score: infinities are absorbing (`inf - 1 = inf`). -/
def Score.sub1 : Score → Score
  | .fin n => .fin (n - 1)
  | s => s

/-- Python `x + 1` on a score: infinities are absorbing (`-inf + 1 = -inf`). -/
def Score.add1 : Score → Score
  | .fin n => .fin (n + 1)
  | s => s

/-- The mate-distance adjustment applied to each recursive return value
(movegen.py lines 190-193 and 209-212):

    if curr_move > MATE_THRESHOLD: curr_move -= 1
    elif curr_move < -MATE_THRESHOLD: curr_move += 1
-/
def adjustMate (s : Score) : Score :=
  if Score.fin MATE_THRESHOLD < s then s.sub1
  else if s < Score.fin (-MATE_THRESHOLD) then s.add1
  else s

/-!
## Pure search layer

`Game` packages the oracles the Search Engine consumes (spec section 6):
the Board Model predicates and transition, the Static Evaluator, and the Move
Orderer's produced move list for each position.  Positions `P` and moves `M`
are opaque, as the spec's data model requires.
-/

/-- The external collaborators of the search, as consumed by
`minimax` / `minimax_root`:  board predicates and the push transition
(python-chess), the leaf evaluator `evaluate_board` (module `eval`), and the
ordered move list produced by the Move Orderer for each position. -/
structure Game (P M : Type) where
  isCheckmate : P → Bool
  isGameOver : P → Bool
  canClaimDraw : P → Bool
  turnWhite : P → Bool
  push : P → M → P
  orderedMoves : P → List M
  evaluate : P → ℤ

/-- The maximizing move loop of `minimax` (movegen.py lines 184-202).
`child m a` is the recursive call `minimax(depth - 1, board-after-m, a, beta,
False)`; the loop applies the mate adjustment to its result, folds a running
maximum, raises `alpha`, and returns early when `beta <= alpha`. -/
def maxLoop {M : Type} (child : M → Score → Score) (beta : Score) :
    List M → Score → Score → Score
  | [], best, _alpha => best
  | m :: ms, best, alpha =>
    let curr := adjustMate (child m alpha)
    let best1 := max best curr
    let alpha1 := max alpha best1
    if beta ≤ alpha1 then best1 else maxLoop child beta ms best1 alpha1

/-- The minimizing move loop of `minimax` (movegen.py lines 203-221),
symmetric to `maxLoop`: running minimum, lowers `beta`, early return when
`beta <= alpha`. -/
def minLoop {M : Type} (child : M → Score → Score) (alpha : Score) :
    List M → Score → Score → Score
  | [], best, _beta => best
  | m :: ms, best, beta =>
    let curr := adjustMate (child m beta)
    let best1 := min best curr
    let beta1 := min beta best1
    if beta1 ≤ alpha then best1 else minLoop child alpha ms best1 beta1

/-- `minimax` (movegen.py lines 163-221), with the board threaded as a pure
position (each push produces the child position; the matching pop of the
source is the return to the parent's position).  The order of the checks is
the source's: checkmate, then any other game-over condition, then the depth
test, then the two move loops. -/
def minimax {P M : Type} (g : Game P M) :
    ℕ → P → Score → Score → Bool → Score
  | depth, pos, alpha, beta, maxi =>
    if g.isCheckmate pos then
      if maxi then Score.fin (-MATE_SCORE) else Score.fin MATE_SCORE
    else if g.isGameOver pos then Score.fin 0
    else
      match depth with
      | 0 => Score.fin (g.evaluate pos)
      | d + 1 =>
        if maxi then
          maxLoop (fun m a => minimax g d (g.push pos m) a beta false) beta
            (g.orderedMoves pos) Score.negInf alpha
        else
          minLoop (fun m b => minimax g d (g.push pos m) alpha b true) alpha
            (g.orderedMoves pos) Score.posInf beta

/-- The root loop of `minimax_root` (movegen.py lines 145-158): for each root
move, push it, score the resulting position (`0.0` when it allows a claimable
draw, otherwise a fresh full-window recursive search of depth `d - 1` with the
side flag flipped), pop it, and update the running best score and best move
with the source's non-strict comparisons (`>=` / `<=`). -/
def rootLoopImpl {P M : Type} (g : Game P M) (d : ℕ) (pos : P) (maximize : Bool) :
    List M → Score → M → Score × M
  | [], best, found => (best, found)
  | m :: ms, best, found =>
    let value : Score :=
      if g.canClaimDraw (g.push pos m) then Score.fin 0
      else minimax g (d - 1) (g.push pos m) Score.negInf Score.posInf (!maximize)
    if maximize = true ∧ best ≤ value then rootLoopImpl g d pos maximize ms value m
    else if maximize = false ∧ value ≤ best then rootLoopImpl g d pos maximize ms value m
    else rootLoopImpl g d pos maximize ms best found

/-- `minimax_root` (movegen.py lines 135-160), returning both the running best
score and the selected move (the source keeps both in `best_move` /
`best_move_found` and returns the move).  An empty ordered move list makes the
source raise `IndexError` at `moves[0]`; that case is `none` here. -/
def minimax_root_pair {P M : Type} (g : Game P M) (d : ℕ) (pos : P) :
    Option (Score × M) :=
  let maximize := g.turnWhite pos
  let best0 : Score := if maximize then Score.negInf else Score.posInf
  match g.orderedMoves pos with
  | [] => none
  | m0 :: rest => some (rootLoopImpl g d pos maximize (m0 :: rest) best0 m0)

/-- The move selected by `minimax_root`. -/
def minimax_root {P M : Type} (g : Game P M) (d : ℕ) (pos : P) : Option M :=
  (minimax_root_pair g d pos).map Prod.snd

/-!
## The spec's unpruned full-width minimax (for the pruning-equivalence claim)

These definitions follow the specification's words (spec section 8, pruning
equivalence): the same depth, the same move ordering, the same terminal rules
and mate adjustment, but every child is evaluated — no alpha-beta window and
no cutoff.
-/

/-- Unpruned full-width minimax over the same ordering, terminal rules, and
mate adjustment as `minimax`, following the spec's words. -/
def fullMinimax {P M : Type} (g : Game P M) : ℕ → P → Bool → Score
  | depth, pos, maxi =>
    if g.isCheckmate pos then
      if maxi then Score.fin (-MATE_SCORE) else Score.fin MATE_SCORE
    else if g.isGameOver pos then Score.fin 0
    else
      match depth with
      | 0 => Score.fin (g.evaluate pos)
      | d + 1 =>
        let vals := (g.orderedMoves pos).map
          (fun m => adjustMate (fullMinimax g d (g.push pos m) (!maxi)))
        if maxi then vals.foldl max Score.negInf
        else vals.foldl min Score.posInf

/-- The root loop with each branch valued by the unpruned `fullMinimax`
(identical selection rule and draw short-circuit to `rootLoopImpl`). -/
def fullRootLoop {P M : Type} (g : Game P M) (d : ℕ) (pos : P) (maximize : Bool) :
    List M → Score → M → Score × M
  | [], best, found => (best, found)
  | m :: ms, best, found =>
    let value : Score :=
      if g.canClaimDraw (g.push pos m) then Score.fin 0
      else fullMinimax g (d - 1) (g.push pos m) (!maximize)
    if maximize = true ∧ best ≤ value then fullRootLoop g d pos maximize ms value m
    else if maximize = false ∧ value ≤ best then fullRootLoop g d pos maximize ms value m
    else fullRootLoop g d pos maximize ms best found

/-- The root selection computed over the unpruned full-width search. -/
def fullRoot_pair {P M : Type} (g : Game P M) (d : ℕ) (pos : P) :
    Option (Score × M) :=
  let maximize := g.turnWhite pos
  let best0 : Score := if maximize then Score.negInf else Score.posInf
  match g.orderedMoves pos with
  | [] => none
  | m0 :: rest => some (fullRootLoop g d pos maximize (m0 :: rest) best0 m0)

/-!
## Spec-side root selection definitions

`branchValueSpec` writes out, in the spec's words, the value `minimax_root`
gives a root branch: zero when the position after the move allows a claimable
draw, otherwise a fresh full-window search of depth `d - 1` with the side flag
flipped.  `rootLoopGen` / `selectRoot` are the root selection loop
parameterized by an arbitrary per-move value function; `rootExtremum` and
`lastAttaining` spell out the selection rule (extremum of the branch values,
last move attaining it).
-/

/-- The value the spec assigns to one root branch: `0` when the position after
the move allows a claimable draw, else an independent full-window
(`-inf`, `+inf`) search of depth `d - 1` with the side-to-move flag flipped. -/
def branchValueSpec {P M : Type} (g : Game P M) (d : ℕ) (pos : P) (m : M) : Score :=
  if g.canClaimDraw (g.push pos m) then Score.fin 0
  else minimax g (d - 1) (g.push pos m) Score.negInf Score.posInf (!g.turnWhite pos)

/-- The root selection loop over an arbitrary per-move value function, with
the source's non-strict update comparisons. -/
def rootLoopGen {M : Type} (value : M → Score) (maximize : Bool) :
    List M → Score → M → Score × M
  | [], best, found => (best, found)
  | m :: ms, best, found =>
    if maximize = true ∧ best ≤ value m then rootLoopGen value maximize ms (value m) m
    else if maximize = false ∧ value m ≤ best then rootLoopGen value maximize ms (value m) m
    else rootLoopGen value maximize ms best found

/-- Root selection over the ordered moves with an explicit per-move value
function. -/
def selectRoot {P M : Type} (g : Game P M) (pos : P) (value : M → Score) :
    Option (Score × M) :=
  let maximize := g.turnWhite pos
  let best0 : Score := if maximize then Score.negInf else Score.posInf
  match g.orderedMoves pos with
  | [] => none
  | m0 :: rest => some (rootLoopGen value maximize (m0 :: rest) best0 m0)

/-- The extremum of the root branch values: the maximum when the side to move
is White, the minimum otherwise. -/
def rootExtremum {P M : Type} (g : Game P M) (d : ℕ) (pos : P) : Score :=
  let vals := (g.orderedMoves pos).map (branchValueSpec g d pos)
  if g.turnWhite pos then vals.foldl max Score.negInf
  else vals.foldl min Score.posInf

/-- The last element of `l` whose value is `s`. -/
def lastAttaining {M : Type} (value : M → Score) (s : Score) (l : List M) :
    Option M :=
  (l.filter (fun x => decide (value x = s))).getLast?

/-!
## Concrete games used as counterexamples

Positions and moves are natural numbers; pushing a move moves to the position
with that number.  All scores below stay near the mate region on purpose: the
mate-distance adjustment (`adjustMate`) is what separates the pruned search
from the full-width one.
-/

/-- Black to move at the root (minimizing).  The ordered trees:
root `0` has branches to `1` (children `3`, `4`) and `2` (child `8`);
`3` has the single leaf `5`, `4` has leaves `6`, `7`, `8` has the leaf `9`.
Leaf evaluations sit just below `-MATE_THRESHOLD`, so every level shifts them
one unit toward zero. -/
def cg1 : Game ℕ ℕ where
  isCheckmate _ := false
  isGameOver _ := false
  canClaimDraw _ := false
  turnWhite _ := false
  push _ m := m
  orderedMoves p :=
    match p with
    | 0 => [1, 2]
    | 1 => [3, 4]
    | 3 => [5]
    | 4 => [6, 7]
    | 2 => [8]
    | 8 => [9]
    | _ => []
  evaluate p :=
    match p with
    | 5 => -999000010
    | 6 => -999000009
    | 7 => -999000100
    | 9 => -999000009
    | _ => 0

/-- White to move at the root, two root moves whose positions evaluate to the
same leaf score: a tie at the extremum. -/
def cg8 : Game ℕ ℕ where
  isCheckmate _ := false
  isGameOver _ := false
  canClaimDraw _ := false
  turnWhite _ := true
  push _ m := m
  orderedMoves p := match p with | 0 => [1, 2] | _ => []
  evaluate _ := 7

/-!
## Exception layer: board as explicit mutable state, external failures

The Python board is one mutable object used with push/pop stack discipline.
`BStateE` models it as the current position plus the stack of previous
positions; `board.push` prepends the current position to the history,
`board.pop` restores the most recent one (raising `IndexError` on an empty
stack, as python-chess does).  Errors raised inside a recursive call
propagate as `Except.error` carrying the board state as it is at that moment —
exactly the Python semantics, since the source has no try/finally around the
push/recurse/pop sequence.
-/

/-- Python exception values relevant to this code. -/
inductive PyErr where
  | typeError (msg : String)
  | indexError
  | valueError (msg : String)
  | recursionError
deriving DecidableEq, Repr

/-- The search's collaborators for the exception layer: as `Game`, but the
Static Evaluator may raise. -/
structure GameE (P M : Type) where
  isCheckmate : P → Bool
  isGameOver : P → Bool
  canClaimDraw : P → Bool
  turnWhite : P → Bool
  push : P → M → P
  orderedMoves : P → List M
  evaluateE : P → Except PyErr ℤ

/-- The board as mutable state: current position and the pushed history. -/
structure BStateE (P : Type) where
  cur : P
  hist : List P
deriving DecidableEq, Repr

/-- `board.push(move)`. -/
def pushE {P M : Type} (g : GameE P M) (st : BStateE P) (m : M) : BStateE P :=
  ⟨g.push st.cur m, st.cur :: st.hist⟩

/-- `board.pop()`: restores the previous position, `IndexError` when the move
stack is empty. -/
def popE {P : Type} (st : BStateE P) : Except PyErr (BStateE P) :=
  match st.hist with
  | [] => .error .indexError
  | h :: t => .ok ⟨h, t⟩

/-- The maximizing move loop (movegen.py lines 184-202) with the board as
explicit state and exception propagation.  The push of line 187 happens
first; if the recursive call raises, the pop of line 198 never runs and
the error propagates with the board still mutated. -/
def maxLoopS {S M : Type} (pushS : S → M → S) (popS : S → Except PyErr S)
    (child : S → Score → Except PyErr Score × S) (beta : Score) :
    List M → S → Score → Score → Except PyErr Score × S
  | [], st, best, _alpha => (.ok best, st)
  | m :: ms, st, best, alpha =>
    let st1 := pushS st m
    match child st1 alpha with
    | (.error e, st2) => (.error e, st2)
    | (.ok curr0, st2) =>
      let curr := adjustMate curr0
      let best1 := max best curr
      match popS st2 with
      | .error e => (.error e, st2)
      | .ok st3 =>
        let alpha1 := max alpha best1
        if beta ≤ alpha1 then (.ok best1, st3)
        else maxLoopS pushS popS child beta ms st3 best1 alpha1

/-- The minimizing move loop (movegen.py lines 203-221) with the board as
explicit state, symmetric to `maxLoopS`. -/
def minLoopS {S M : Type} (pushS : S → M → S) (popS : S → Except PyErr S)
    (child : S → Score → Except PyErr Score × S) (alpha : Score) :
    List M → S → Score → Score → Except PyErr Score × S
  | [], st, best, _beta => (.ok best, st)
  | m :: ms, st, best, beta =>
    let st1 := pushS st m
    match child st1 beta with
    | (.error e, st2) => (.error e, st2)
    | (.ok curr0, st2) =>
      let curr := adjustMate curr0
      let best1 := min best curr
      match popS st2 with
      | .error e => (.error e, st2)
      | .ok st3 =>
        let beta1 := min beta best1
        if beta1 ≤ alpha then (.ok best1, st3)
        else minLoopS pushS popS child alpha ms st3 best1 beta1

/-- The root loop (movegen.py lines 145-158) with the board as explicit
state: push, value the resulting position, pop, update the running best.
If valuing the position raises, the pop of line 152 never runs. -/
def rootLoopS {S M : Type} (pushS : S → M → S) (popS : S → Except PyErr S)
    (value : S → Except PyErr Score × S) (maximize : Bool) :
    List M → S → Score → M → Except PyErr M × S
  | [], st, _best, found => (.ok found, st)
  | m :: ms, st, best, found =>
    let st1 := pushS st m
    match value st1 with
    | (.error e, st2) => (.error e, st2)
    | (.ok v, st2) =>
      match popS st2 with
      | .error e => (.error e, st2)
      | .ok st3 =>
        if maximize = true ∧ best ≤ v then rootLoopS pushS popS value maximize ms st3 v m
        else if maximize = false ∧ v ≤ best then rootLoopS pushS popS value maximize ms st3 v m
        else rootLoopS pushS popS value maximize ms st3 best found

/-- `minimax` in the exception layer. -/
def minimaxE {P M : Type} (g : GameE P M) :
    ℕ → BStateE P → Score → Score → Bool → Except PyErr Score × BStateE P
  | depth, st, alpha, beta, maxi =>
    if g.isCheckmate st.cur then
      (.ok (if maxi then Score.fin (-MATE_SCORE) else Score.fin MATE_SCORE), st)
    else if g.isGameOver st.cur then (.ok (Score.fin 0), st)
    else
      match depth with
      | 0 =>
        match g.evaluateE st.cur with
        | .error e => (.error e, st)
        | .ok v => (.ok (Score.fin v), st)
      | d + 1 =>
        if maxi then
          maxLoopS (pushE g) popE (fun st1 a => minimaxE g d st1 a beta false) beta
            (g.orderedMoves st.cur) st Score.negInf alpha
        else
          minLoopS (pushE g) popE (fun st1 b => minimaxE g d st1 alpha b true) alpha
            (g.orderedMoves st.cur) st Score.posInf beta

/-- `minimax_root` in the exception layer. -/
def minimax_rootE {P M : Type} (g : GameE P M) (d : ℕ) (st : BStateE P) :
    Except PyErr M × BStateE P :=
  let maximize := g.turnWhite st.cur
  let best0 : Score := if maximize then Score.negInf else Score.posInf
  match g.orderedMoves st.cur with
  | [] => (.error .indexError, st)
  | m0 :: rest =>
    rootLoopS (pushE g) popE
      (fun st1 =>
        if g.canClaimDraw st1.cur then (.ok (Score.fin 0), st1)
        else minimaxE g (d - 1) st1 Score.negInf Score.posInf (!maximize))
      maximize (m0 :: rest) st best0 m0

/-- A game whose external evaluator always raises (the spec's "malformed
position" example): root `0` with the single move to `1`, which has the
single move to the leaf `2`. -/
def cgE2 : GameE ℕ ℕ where
  isCheckmate _ := false
  isGameOver _ := false
  canClaimDraw _ := false
  turnWhite _ := true
  push _ m := m
  orderedMoves p := match p with | 0 => [1] | 1 => [2] | _ => []
  evaluateE _ := .error (.valueError "malformed position")

/-!
## As-written layer: the code as it is, Python call semantics included

`BoardB` models the python-chess board as consumed by the functions of
movegen.py that take it directly: piece counts per color and type, the
terminal predicates, the draw-claim predicate, and the side to move.
`evaluate_board_score` (movegen.py lines 99-116) is translated exactly,
double color loop included.  `get_ordered_moves` (lines 38-53) is translated
with Python call semantics: the four feature functions are declared with two
required positional parameters `(board, color)` (lines 56, 62, 73, 82) but
are called with the board alone (lines 41-44), so the first such call raises
`TypeError` before any feature body runs — consequently the feature bodies
never execute and need no modelling at these call sites.
-/

/-- `chess.Color`. -/
inductive ColorB where
  | white : ColorB
  | black : ColorB
deriving DecidableEq, Repr

/-- `chess.Color` negation, as the source's `chess.Color.opposite(color)`
intends. -/
def ColorB.opposite : ColorB → ColorB
  | .white => .black
  | .black => .white

/-- `chess.PieceType`. -/
inductive PieceTypeB where
  | pawn : PieceTypeB
  | rook : PieceTypeB
  | knight : PieceTypeB
  | bishop : PieceTypeB
  | queen : PieceTypeB
  | king : PieceTypeB
deriving DecidableEq, Repr

/-- The `piece_value` table (movegen.py lines 9-16). -/
def piece_value : PieceTypeB → ℤ
  | .pawn => 100
  | .rook => 500
  | .knight => 320
  | .bishop => 330
  | .queen => 900
  | .king => 20000

/-- The python-chess board as used by `evaluate_board_score`,
`get_ordered_moves`, `minimax_root` and `minimax`: `count c t` is
`len(board.pieces(c, t))`, the Booleans are the board predicates consulted by
those functions, `turnWhite` is `board.turn == chess.WHITE`. -/
structure BoardB where
  count : ColorB → PieceTypeB → ℕ
  is_checkmate : Bool
  is_stalemate : Bool
  is_insufficient_material : Bool
  is_seventyfive_moves : Bool
  is_fivefold_repetition : Bool
  is_game_over : Bool
  can_claim_draw : Bool
  turnWhite : Bool

/-- The material loop of `evaluate_board_score` (movegen.py lines 100-103),
exactly as written: it runs over the five piece types AND over both colors,
adding `piece_value[t] * (len(pieces(c, t)) - len(pieces(opposite(c), t)))`
for each color `c`. -/
def material_loop (board : BoardB) : ℤ :=
  [PieceTypeB.pawn, PieceTypeB.rook, PieceTypeB.knight,
    PieceTypeB.bishop, PieceTypeB.queen].foldl
    (fun s t =>
      [ColorB.white, ColorB.black].foldl
        (fun s2 c =>
          s2 + piece_value t * ((board.count c t : ℤ) - (board.count c.opposite t : ℤ)))
        s)
    0

/-- `evaluate_board_score` (movegen.py lines 99-116): the double material
loop, then checkmate adds a signed `MATE_SCORE`, and each of the four draw
predicates resets the score to zero. -/
def evaluate_board_score (board : BoardB) : ℤ :=
  let score : ℤ := material_loop board
  if board.is_checkmate then
    score + (if board.turnWhite then MATE_SCORE else -MATE_SCORE)
  else if board.is_stalemate then 0
  else if board.is_insufficient_material then 0
  else if board.is_seventyfive_moves then 0
  else if board.is_fivefold_repetition then 0
  else score

/-- The side to move of a board. -/
def sideToMove (board : BoardB) : ColorB :=
  if board.turnWhite then ColorB.white else ColorB.black

/-- The material score as the claim words it: the signed sum, over the piece
types pawn, rook, knight, bishop and queen, of `value(type)` times the count
of the side to move's pieces of that type minus the opponent's count. -/
def material_score_claim (board : BoardB) : ℤ :=
  [PieceTypeB.pawn, PieceTypeB.rook, PieceTypeB.knight,
    PieceTypeB.bishop, PieceTypeB.queen].foldl
    (fun s t =>
      s + piece_value t *
        ((board.count (sideToMove board) t : ℤ) -
          (board.count (sideToMove board).opposite t : ℤ)))
    0

/-- Python call semantics for the call sites of movegen.py lines 41-44: each
feature function is declared with two required positional parameters
`(board, color)` (lines 56, 62, 73, 82) but invoked as `f(board)`, so the
call raises `TypeError` before the function body runs.  The body therefore
never executes at these call sites and is not modelled here. -/
def missingColorCall (fname : String) (_board : BoardB) : Except PyErr ℤ :=
  .error (.typeError fname)

/-- The external pieces of `get_ordered_moves` and of the (unreachable) move
loops: the Board Model transition and the `eval`-module oracles
(`check_end_game`, `evaluate_board`, and the `sorted(..., key=orderer, ...)`
of lines 47-53, which depends only on the external `move_value`). -/
structure ExtA where
  push : BoardB → ℕ → BoardB
  evaluate_board : BoardB → ℤ
  check_end_game : BoardB → Bool
  sorted_legal_moves : BoardB → Bool → List ℕ

/-- `get_ordered_moves` (movegen.py lines 38-53) as written: line 40 computes
the material score (this succeeds), then line 41 calls
`evaluate_pawn_structure(board)` with the board alone and raises `TypeError`;
lines 42-53 are unreachable. -/
def get_ordered_moves (ext : ExtA) (board : BoardB) : Except PyErr (List ℕ) := do
  let _boardscore := evaluate_board_score board
  let _pawnstruct ← missingColorCall "evaluate_pawn_structure" board
  let _open_line ← missingColorCall "evaluate_open_lines" board
  let _threats ← missingColorCall "evaluate_threats" board
  let _mobility ← missingColorCall "evaluate_mobility" board
  let end_game := ext.check_end_game board
  pure (ext.sorted_legal_moves board end_game)

/-- The board as mutable state for the as-written layer, together with the
`debug_info` node counter (movegen.py line 171 increments it once per
`minimax` call). -/
structure BStateA where
  cur : BoardB
  hist : List BoardB
  nodes : ℕ

/-- `board.push(move)` in the as-written layer. -/
def pushA (ext : ExtA) (st : BStateA) (m : ℕ) : BStateA :=
  ⟨ext.push st.cur m, st.cur :: st.hist, st.nodes⟩

/-- `board.pop()` in the as-written layer. -/
def popA (st : BStateA) : Except PyErr BStateA :=
  match st.hist with
  | [] => .error .indexError
  | h :: t => .ok ⟨h, t, st.nodes⟩

/-- `minimax` (movegen.py lines 163-221) as written: node counter increment,
terminal checks, depth test, then each branch first calls
`get_ordered_moves` (lines 185 and 205) — which always raises `TypeError`
(see `get_ordered_moves_raises_c3`), so the move loops below are dead code.
`fuel` bounds the recursion depth as Python's recursion limit does; it is
never consumed on any reachable path. -/
def minimaxA (ext : ExtA) :
    ℕ → ℤ → BStateA → Score → Score → Bool → Except PyErr Score × BStateA
  | fuel, depth, st0, alpha, beta, maxi =>
    let st : BStateA := ⟨st0.cur, st0.hist, st0.nodes + 1⟩
    if st.cur.is_checkmate then
      (.ok (if maxi then Score.fin (-MATE_SCORE) else Score.fin MATE_SCORE), st)
    else if st.cur.is_game_over then (.ok (Score.fin 0), st)
    else if depth = 0 then (.ok (Score.fin (ext.evaluate_board st.cur)), st)
    else if maxi then
      match get_ordered_moves ext st.cur with
      | .error e => (.error e, st)
      | .ok moves =>
        match fuel with
        | 0 => (.error .recursionError, st)
        | f + 1 =>
          maxLoopS (pushA ext) popA
            (fun st1 a => minimaxA ext f (depth - 1) st1 a beta false) beta
            moves st Score.negInf alpha
    else
      match get_ordered_moves ext st.cur with
      | .error e => (.error e, st)
      | .ok moves =>
        match fuel with
        | 0 => (.error .recursionError, st)
        | f + 1 =>
          minLoopS (pushA ext) popA
            (fun st1 b => minimaxA ext f (depth - 1) st1 alpha b true) alpha
            moves st Score.posInf beta

/-- `minimax_root` (movegen.py lines 135-160) as written: the call to
`get_ordered_moves` at line 142 precedes every push, every draw check and
every recursive search. -/
def minimax_rootA (ext : ExtA) (fuel : ℕ) (depth : ℤ) (st : BStateA) :
    Except PyErr ℕ × BStateA :=
  let maximize := st.cur.turnWhite
  let best0 : Score := if maximize then Score.negInf else Score.posInf
  match get_ordered_moves ext st.cur with
  | .error e => (.error e, st)
  | .ok moves =>
    match moves with
    | [] => (.error .indexError, st)
    | m0 :: _ =>
      rootLoopS (pushA ext) popA
        (fun st1 =>
          if st1.cur.can_claim_draw then (.ok (Score.fin 0), st1)
          else minimaxA ext fuel (depth - 1) st1 Score.negInf Score.posInf (!maximize))
        maximize moves st best0 m0

/-- `next_move` (movegen.py lines 22-35): clears the statistics (nodes back
to zero), runs `minimax_root`, and returns its result.  Wall-clock timing and
printing are not modelled. -/
def next_moveA (ext : ExtA) (fuel : ℕ) (depth : ℤ) (st : BStateA) :
    Except PyErr ℕ × BStateA :=
  minimax_rootA ext fuel depth ⟨st.cur, st.hist, 0⟩

/-!
## Claims C2, C3, C4, C9
-/

/-- The double color loop of `evaluate_board_score` cancels identically:
for each piece type the White term and the Black term are negatives of each
other, so the material part of the score is zero for every board. -/
theorem material_loop_eq_zero (board : BoardB) : material_loop board = 0 := by
  unfold material_loop
  simp only [List.foldl_cons, List.foldl_nil, ColorB.opposite]
  ring

/-- C3: for every position, `get_ordered_moves` fails at runtime: its call
sites pass only the board to the feature functions that require an explicit
color parameter, so the first of them (`evaluate_pawn_structure`, line 41)
raises `TypeError`; consequently no call of `next_move` or `minimax_root` —
each of which reaches move ordering before anything else — completes
normally, and the board state is returned untouched. -/
theorem get_ordered_moves_raises_c3 :
    ∀ (ext : ExtA) (board : BoardB),
      get_ordered_moves ext board =
        .error (.typeError "evaluate_pawn_structure") ∧
      ∀ (fuel : ℕ) (depth : ℤ) (st : BStateA),
        minimax_rootA ext fuel depth st =
          (.error (.typeError "evaluate_pawn_structure"), st) ∧
        next_moveA ext fuel depth st =
          (.error (.typeError "evaluate_pawn_structure"), ⟨st.cur, st.hist, 0⟩) := by
  intro ext board
  exact ⟨rfl, fun fuel depth st => ⟨rfl, rfl⟩⟩

/-- C9: for every depth at most zero, the Driver fails immediately with no
partial search: the board stack is untouched (same current position, same
history) and the node counter is not incremented, so no move was applied and
no recursive `minimax` evaluation took place before the failure. -/
theorem invalid_depth_fails_c9 (ext : ExtA) (fuel : ℕ) (depth : ℤ)
    (_hd : depth ≤ 0) (st : BStateA) :
    minimax_rootA ext fuel depth st =
      (.error (.typeError "evaluate_pawn_structure"), st) ∧
    next_moveA ext fuel depth st =
      (.error (.typeError "evaluate_pawn_structure"), ⟨st.cur, st.hist, 0⟩) :=
  ⟨rfl, rfl⟩

/-- A trivial instantiation of the external oracles of the as-written layer. -/
def extW : ExtA where
  push b _ := b
  evaluate_board _ := 0
  check_end_game _ := false
  sorted_legal_moves _ _ := []

/-- A quiet board: no pieces, no terminal flags, White to move. -/
def boardW : BoardB where
  count _ _ := 0
  is_checkmate := false
  is_stalemate := false
  is_insufficient_material := false
  is_seventyfive_moves := false
  is_fivefold_repetition := false
  is_game_over := false
  can_claim_draw := false
  turnWhite := true

theorem invalid_depth_fails_c9_witness :
    (0 : ℤ) ≤ 0 ∧
    minimax_rootA extW 5 0 ⟨boardW, [], 0⟩ =
      (.error (.typeError "evaluate_pawn_structure"), ⟨boardW, [], 0⟩) :=
  ⟨le_refl 0, (invalid_depth_fails_c9 extW 5 0 (le_refl 0) ⟨boardW, [], 0⟩).1⟩

/-- C2: evaluating the search at a failing input.  In `cgE2` the external
evaluator raises at every leaf; a depth-2 root call pushes the root move and
the reply, the leaf evaluation raises, and the exception propagates through
the `minimax` loop (line 198) and the root loop (line 152) without either
pop running: the call fails with the board two pushes away from its pre-call
state, contradicting the claim that every push is matched by a pop on error
paths. -/
theorem board_left_mutated_c2 :
    minimax_rootE cgE2 2 ⟨0, []⟩ =
      (.error (.valueError "malformed position"), ⟨2, [1, 0]⟩) ∧
    (⟨2, [1, 0]⟩ : BStateE ℕ) ≠ ⟨0, []⟩ := by
  exact ⟨rfl, by decide⟩

/-- A board on which the material sum of the claim is nonzero: White has one
queen and there are no other pieces; no terminal or draw predicate holds. -/
def boardC4 : BoardB where
  count c t := if c = ColorB.white ∧ t = PieceTypeB.queen then 1 else 0
  is_checkmate := false
  is_stalemate := false
  is_insufficient_material := false
  is_seventyfive_moves := false
  is_fivefold_repetition := false
  is_game_over := false
  can_claim_draw := false
  turnWhite := true

/-- C4 counterexample: a non-terminal position where White (the side to move)
has an extra queen.  The claimed signed material sum is `900`, but
`evaluate_board_score` returns `0` — its color loop adds each difference once
positively and once negatively, so the material part always cancels. -/
theorem evaluate_board_score_c4_counterexample :
    boardC4.is_checkmate = false ∧
    boardC4.is_stalemate = false ∧
    boardC4.is_insufficient_material = false ∧
    boardC4.is_seventyfive_moves = false ∧
    boardC4.is_fivefold_repetition = false ∧
    material_score_claim boardC4 = 900 ∧
    evaluate_board_score boardC4 = 0 ∧
    evaluate_board_score boardC4 ≠ material_score_claim boardC4 :=
  ⟨rfl, rfl, rfl, rfl, rfl, by decide, by decide, by decide⟩

/-- C4 amended: the double color loop cancels, so the material term is
identically zero.  `evaluate_board_score` returns a signed `MATE_SCORE`
(positive exactly when the side to move is White) in a checkmate position and
zero otherwise — in particular exactly zero in the stalemate, insufficient
material, 75-move and fivefold-repetition positions. -/
theorem evaluate_board_score_c4_amended (board : BoardB) :
    evaluate_board_score board =
      if board.is_checkmate then
        (if board.turnWhite then MATE_SCORE else -MATE_SCORE)
      else 0 := by
  unfold evaluate_board_score
  rw [material_loop_eq_zero]
  split_ifs <;> simp_all

/-!
## Claims C5 and C6
-/

theorem Score.fin_le_fin (a b : ℤ) : Score.fin a ≤ Score.fin b ↔ a ≤ b := by
  simp [Score.le_def, Score.leB]

theorem Score.fin_lt_fin (a b : ℤ) : Score.fin a < Score.fin b ↔ a < b := by
  rw [lt_iff_le_not_le, Score.fin_le_fin, Score.fin_le_fin]
  omega

theorem Score.max_negInf (s : Score) : max Score.negInf s = s :=
  max_eq_right (Score.negInf_le s)

theorem Score.min_posInf (s : Score) : min Score.posInf s = s :=
  min_eq_right (Score.le_posInf s)

/-- C5: at every node and for every depth, `minimax` performs its terminal
checks before the depth test and before any move generation: a checkmate
position returns `-MATE_SCORE` when the node is maximizing and `+MATE_SCORE`
when it is minimizing, at every depth (zero included); any other game-over
position returns exactly zero at every depth; only otherwise does the
depth-zero leaf return the external Static Evaluator's score unmodified. -/
theorem minimax_terminal_c5 {P M : Type} (g : Game P M) (depth : ℕ) (pos : P)
    (alpha beta : Score) (maxi : Bool) :
    (g.isCheckmate pos = true →
      minimax g depth pos alpha beta maxi =
        (if maxi then Score.fin (-MATE_SCORE) else Score.fin MATE_SCORE)) ∧
    (g.isCheckmate pos = false → g.isGameOver pos = true →
      minimax g depth pos alpha beta maxi = Score.fin 0) ∧
    (g.isCheckmate pos = false → g.isGameOver pos = false →
      minimax g 0 pos alpha beta maxi = Score.fin (g.evaluate pos)) := by
  refine ⟨fun h1 => ?_, fun h1 h2 => ?_, fun h1 h2 => ?_⟩
  · cases depth <;> simp [minimax, h1]
  · cases depth <;> simp [minimax, h1, h2]
  · simp [minimax, h1, h2]

/-- A game with a single forced line `0 -> 1 -> 2`, used as concrete input by
several witnesses: no terminal positions, White to move, every leaf
evaluating just above `MATE_THRESHOLD`. -/
def gW6 : Game ℕ ℕ where
  isCheckmate _ := false
  isGameOver _ := false
  canClaimDraw _ := false
  turnWhite _ := true
  push _ m := m
  orderedMoves p := match p with | 0 => [1] | 1 => [2] | _ => []
  evaluate _ := 999000005

/-- A game with one checkmate position (1), one other game-over position (2),
and a quiet position (0), used as concrete input by witnesses. -/
def gW5 : Game ℕ ℕ where
  isCheckmate p := p = 1
  isGameOver p := p = 1 ∨ p = 2
  canClaimDraw _ := false
  turnWhite _ := true
  push _ m := m
  orderedMoves _ := []
  evaluate _ := 42

theorem minimax_terminal_c5_witness :
    (minimax gW5 0 1 Score.negInf Score.posInf true = Score.fin (-MATE_SCORE)) ∧
    (minimax gW5 3 2 Score.negInf Score.posInf true = Score.fin 0) ∧
    (minimax gW5 0 0 Score.negInf Score.posInf false = Score.fin 42) := by
  refine ⟨?_, ?_, ?_⟩
  · exact ((minimax_terminal_c5 gW5 0 1 Score.negInf Score.posInf true).1 (by decide)).trans
      (by decide)
  · exact (minimax_terminal_c5 gW5 3 2 Score.negInf Score.posInf true).2.1 (by decide) (by decide)
  · exact (minimax_terminal_c5 gW5 0 0 Score.negInf Score.posInf false).2.2 (by decide) (by decide)

/-- The running-maximum aggregation of movegen.py lines 184-202 — the alpha
update and the `beta <= alpha` cutoff — over an arbitrary per-child score
function: the spec's words for the interior maximizing node once the
mate-distance adjustment has been applied, consuming `child m alpha` directly
with no further adjustment. -/
def maxAggregate {M : Type} (child : M → Score → Score) (beta : Score) :
    List M → Score → Score → Score
  | [], best, _alpha => best
  | m :: ms, best, alpha =>
    let best1 := max best (child m alpha)
    let alpha1 := max alpha best1
    if beta ≤ alpha1 then best1 else maxAggregate child beta ms best1 alpha1

/-- The minimizing counterpart of `maxAggregate` (movegen.py lines
203-221). -/
def minAggregate {M : Type} (child : M → Score → Score) (alpha : Score) :
    List M → Score → Score → Score
  | [], best, _beta => best
  | m :: ms, best, beta =>
    let best1 := min best (child m beta)
    let beta1 := min beta best1
    if beta1 ≤ alpha then best1 else minAggregate child alpha ms best1 beta1

/-- The source's maximizing loop is the plain aggregation applied to the
POINTWISE-adjusted child function: every child's return, over the whole move
list, is adjusted before it enters the running maximum. -/
theorem maxLoop_eq_aggregate_adjusted {M : Type} (child : M → Score → Score)
    (beta : Score) :
    ∀ (ms : List M) (best alpha : Score),
      maxLoop child beta ms best alpha =
        maxAggregate (fun m a => adjustMate (child m a)) beta ms best alpha := by
  intro ms
  induction ms with
  | nil => intro best alpha; rfl
  | cons m ms ih =>
    intro best alpha
    simp only [maxLoop, maxAggregate]
    split_ifs
    · rfl
    · exact ih _ _

/-- The source's minimizing loop is the plain aggregation applied to the
pointwise-adjusted child function. -/
theorem minLoop_eq_aggregate_adjusted {M : Type} (child : M → Score → Score)
    (alpha : Score) :
    ∀ (ms : List M) (best beta : Score),
      minLoop child alpha ms best beta =
        minAggregate (fun m b => adjustMate (child m b)) alpha ms best beta := by
  intro ms
  induction ms with
  | nil => intro best beta; rfl
  | cons m ms ih =>
    intro best beta
    simp only [minLoop, minAggregate]
    split_ifs
    · rfl
    · exact ih _ _

/-- C6: at every interior node and for every window, the value `minimax`
computes is the plain running max/min aggregation (with the source's alpha
and beta updates and cutoff) applied to the POINTWISE-adjusted recursive
child function — every score returned by a recursive child call, over the
whole ordered move list, passes through the mate-distance adjustment before
it participates in the aggregation, in both the maximizing and the
minimizing branch; and the adjustment moves a score exactly one unit toward
zero when its magnitude exceeds `MATE_THRESHOLD` and leaves it unchanged
otherwise. -/
theorem minimax_mate_adjustment_c6 {P M : Type} (g : Game P M) (d : ℕ) (pos : P)
    (alpha beta : Score)
    (h1 : g.isCheckmate pos = false) (h2 : g.isGameOver pos = false) :
    (minimax g (d + 1) pos alpha beta true =
        maxAggregate
          (fun m a => adjustMate (minimax g d (g.push pos m) a beta false)) beta
          (g.orderedMoves pos) Score.negInf alpha ∧
      minimax g (d + 1) pos alpha beta false =
        minAggregate
          (fun m b => adjustMate (minimax g d (g.push pos m) alpha b true)) alpha
          (g.orderedMoves pos) Score.posInf beta) ∧
    (∀ n : ℤ,
      (MATE_THRESHOLD < n → adjustMate (Score.fin n) = Score.fin (n - 1)) ∧
      (n < -MATE_THRESHOLD → adjustMate (Score.fin n) = Score.fin (n + 1)) ∧
      (-MATE_THRESHOLD ≤ n → n ≤ MATE_THRESHOLD → adjustMate (Score.fin n) = Score.fin n)) := by
  constructor
  · constructor
    · rw [show minimax g (d + 1) pos alpha beta true =
          maxLoop (fun m a => minimax g d (g.push pos m) a beta false) beta
            (g.orderedMoves pos) Score.negInf alpha from by simp [minimax, h1, h2]]
      exact maxLoop_eq_aggregate_adjusted _ beta (g.orderedMoves pos) Score.negInf alpha
    · rw [show minimax g (d + 1) pos alpha beta false =
          minLoop (fun m b => minimax g d (g.push pos m) alpha b true) alpha
            (g.orderedMoves pos) Score.posInf beta from by simp [minimax, h1, h2]]
      exact minLoop_eq_aggregate_adjusted _ alpha (g.orderedMoves pos) Score.posInf beta
  · intro n
    have hTH : MATE_THRESHOLD = 999000000 := rfl
    refine ⟨fun h => ?_, fun h => ?_, fun ha hb => ?_⟩
    · rw [adjustMate, if_pos (by rw [Score.fin_lt_fin]; exact h)]
      rfl
    · rw [adjustMate, if_neg (by rw [Score.fin_lt_fin]; rw [hTH] at h ⊢; omega),
        if_pos (by rw [Score.fin_lt_fin]; exact h)]
      rfl
    · rw [adjustMate, if_neg (by rw [Score.fin_lt_fin]; rw [hTH] at hb ⊢; omega),
        if_neg (by rw [Score.fin_lt_fin]; rw [hTH] at ha ⊢; omega)]

theorem minimax_mate_adjustment_c6_witness :
    cg8.isCheckmate 0 = false ∧ cg8.isGameOver 0 = false ∧
    cg8.orderedMoves 0 = [1, 2] ∧
    minimax cg8 1 0 Score.negInf Score.posInf true =
      maxAggregate
        (fun m a => adjustMate (minimax cg8 0 (cg8.push 0 m) a Score.posInf false))
        Score.posInf (cg8.orderedMoves 0) Score.negInf Score.negInf ∧
    adjustMate (Score.fin 999000001) = Score.fin 999000000 := by
  refine ⟨rfl, rfl, rfl, ?_, ?_⟩
  · exact (minimax_mate_adjustment_c6 cg8 0 0 Score.negInf Score.posInf rfl rfl).1.1
  · exact ((minimax_mate_adjustment_c6 cg8 0 0 Score.negInf Score.posInf rfl rfl).2
      999000001).1 (by decide)

/-!
## Claims C7 and C10
-/

/-- The root loop computes, for each branch, exactly the spec's per-branch
value (`branchValueSpec`): the loop with the inline value computation equals
the generic selection loop applied to that value function. -/
theorem rootLoopImpl_eq_gen {P M : Type} (g : Game P M) (d : ℕ) (pos : P) :
    ∀ (ms : List M) (best : Score) (found : M),
      rootLoopImpl g d pos (g.turnWhite pos) ms best found =
        rootLoopGen (branchValueSpec g d pos) (g.turnWhite pos) ms best found := by
  intro ms
  induction ms with
  | nil => intro best found; rfl
  | cons m ms ih =>
    intro best found
    simp only [rootLoopImpl, rootLoopGen, branchValueSpec]
    split_ifs <;> exact ih _ _

/-- The root computation factors through the per-branch value function. -/
theorem root_pair_factors {P M : Type} (g : Game P M) (d : ℕ) (pos : P) :
    minimax_root_pair g d pos = selectRoot g pos (branchValueSpec g d pos) := by
  unfold minimax_root_pair selectRoot
  cases hm : g.orderedMoves pos with
  | nil => rfl
  | cons m0 rest =>
    exact congrArg some (rootLoopImpl_eq_gen g d pos (m0 :: rest) _ m0)

/-- C7: for every root move, `minimax_root` values the resulting position as
exactly zero when it allows a claimable draw (with no recursive search), and
otherwise by a `minimax` call at depth minus one with the maximizing flag
flipped and with fresh bounds `(-inf, +inf)` for that branch; the whole root
computation factors through this per-branch value function, so no alpha-beta
bounds are shared between distinct root branches. -/
theorem minimax_root_branches_c7 {P M : Type} (g : Game P M) (d : ℕ) (pos : P) :
    minimax_root_pair g d pos = selectRoot g pos (branchValueSpec g d pos) :=
  root_pair_factors g d pos

/-- The move returned by the generic root selection loop is either the
initial candidate or one of the loop's moves. -/
theorem rootLoopGen_mem {M : Type} (value : M → Score) (maxi : Bool) :
    ∀ (ms : List M) (best : Score) (found : M),
      (rootLoopGen value maxi ms best found).2 = found ∨
        (rootLoopGen value maxi ms best found).2 ∈ ms := by
  intro ms
  induction ms with
  | nil => intro best found; left; rfl
  | cons m ms ih =>
    intro best found
    simp only [rootLoopGen]
    split_ifs
    · rcases ih (value m) m with h | h
      · right; rw [h]; exact List.mem_cons_self m ms
      · right; exact List.mem_cons_of_mem m h
    · rcases ih (value m) m with h | h
      · right; rw [h]; exact List.mem_cons_self m ms
      · right; exact List.mem_cons_of_mem m h
    · rcases ih best found with h | h
      · left; exact h
      · right; exact List.mem_cons_of_mem m h

/-- C10: whenever the ordered root move list is non-empty, `minimax_root`
returns a move, and that move is an element of the ordered list (the
selection starts at the first ordered move and every update replaces it with
a move of the list). -/
theorem minimax_root_move_c10 {P M : Type} (g : Game P M) (d : ℕ) (pos : P)
    (h : g.orderedMoves pos ≠ []) :
    ∃ m : M, minimax_root g d pos = some m ∧ m ∈ g.orderedMoves pos := by
  unfold minimax_root minimax_root_pair
  cases hm : g.orderedMoves pos with
  | nil => exact absurd hm h
  | cons m0 rest =>
    refine ⟨_, rfl, ?_⟩
    rw [rootLoopImpl_eq_gen g d pos]
    rcases rootLoopGen_mem (branchValueSpec g d pos) (g.turnWhite pos) (m0 :: rest)
        (if g.turnWhite pos then Score.negInf else Score.posInf) m0 with h1 | h1
    · rw [h1]; exact List.mem_cons_self m0 rest
    · exact h1

theorem minimax_root_move_c10_witness :
    gW6.orderedMoves 0 ≠ [] ∧
    ∃ m : ℕ, minimax_root gW6 1 0 = some m ∧ m ∈ gW6.orderedMoves 0 :=
  ⟨by decide, minimax_root_move_c10 gW6 1 0 (by decide)⟩

/-!
## Claim C8
-/

theorem Score.le_foldl_max (l : List Score) : ∀ a : Score, a ≤ l.foldl max a := by
  induction l with
  | nil => intro a; exact le_refl a
  | cons x xs ih =>
    intro a
    simp only [List.foldl_cons]
    exact le_trans (le_max_left a x) (ih (max a x))

theorem Score.foldl_max_attain (l : List Score) :
    ∀ a : Score, l.foldl max a = a ∨ l.foldl max a ∈ l := by
  induction l with
  | nil => intro a; left; rfl
  | cons x xs ih =>
    intro a
    simp only [List.foldl_cons]
    rcases ih (max a x) with h | h
    · rcases max_choice a x with hm | hm
      · left; rw [h, hm]
      · right; rw [h, hm]; exact List.mem_cons_self x xs
    · right; exact List.mem_cons_of_mem x h

theorem Score.elem_le_foldl_max (l : List Score) :
    ∀ (a x : Score), x ∈ l → x ≤ l.foldl max a := by
  induction l with
  | nil => intro a x hx; simp at hx
  | cons y ys ih =>
    intro a x hx
    simp only [List.foldl_cons]
    rcases List.mem_cons.mp hx with rfl | hx
    · exact le_trans (le_max_right a x) (Score.le_foldl_max ys (max a x))
    · exact ih (max a y) x hx

theorem Score.foldl_min_le (l : List Score) : ∀ a : Score, l.foldl min a ≤ a := by
  induction l with
  | nil => intro a; exact le_refl a
  | cons x xs ih =>
    intro a
    simp only [List.foldl_cons]
    exact le_trans (ih (min a x)) (min_le_left a x)

theorem Score.foldl_min_attain (l : List Score) :
    ∀ a : Score, l.foldl min a = a ∨ l.foldl min a ∈ l := by
  induction l with
  | nil => intro a; left; rfl
  | cons x xs ih =>
    intro a
    simp only [List.foldl_cons]
    rcases ih (min a x) with h | h
    · rcases min_choice a x with hm | hm
      · left; rw [h, hm]
      · right; rw [h, hm]; exact List.mem_cons_self x xs
    · right; exact List.mem_cons_of_mem x h

theorem Score.foldl_min_le_elem (l : List Score) :
    ∀ (a x : Score), x ∈ l → l.foldl min a ≤ x := by
  induction l with
  | nil => intro a x hx; simp at hx
  | cons y ys ih =>
    intro a x hx
    simp only [List.foldl_cons]
    rcases List.mem_cons.mp hx with rfl | hx
    · exact le_trans (Score.foldl_min_le ys (min a x)) (min_le_right a x)
    · exact ih (min a y) x hx

theorem getLast?_cons_getD {α : Type} (m d : α) (xs : List α) :
    ((m :: xs).getLast?).getD d = (xs.getLast?).getD m := by
  cases xs with
  | nil => rfl
  | cons y ys =>
    rw [List.getLast?_cons_cons]
    cases hy : (y :: ys).getLast? with
    | none =>
      exact absurd (List.getLast?_eq_none_iff.mp hy) (by simp)
    | some z => rfl

/-- When some element of `l` attains the value `s`, the last one attaining it
exists. -/
theorem lastAttaining_isSome {M : Type} (value : M → Score) (s : Score) (l : List M)
    (hx : ∃ x ∈ l, value x = s) : ∃ y, lastAttaining value s l = some y := by
  rcases hx with ⟨x, hx, hvx⟩
  have hmem : x ∈ l.filter (fun y => decide (value y = s)) :=
    List.mem_filter.mpr ⟨hx, by simp [hvx]⟩
  cases hlast : (l.filter (fun y => decide (value y = s))).getLast? with
  | none =>
    rw [List.getLast?_eq_none_iff] at hlast
    rw [hlast] at hmem
    simp at hmem
  | some y => exact ⟨y, hlast⟩

/-- The maximizing root loop returns the maximum of the initial best and the
branch values, together with the LAST move attaining that maximum (the
initial candidate when no move attains it): the non-strict `>=` update makes
later ties replace earlier ones. -/
theorem rootLoopGen_max_char {M : Type} (value : M → Score) :
    ∀ (ms : List M) (best : Score) (found : M),
      rootLoopGen value true ms best found =
        ((ms.map value).foldl max best,
          (lastAttaining value ((ms.map value).foldl max best) ms).getD found) := by
  intro ms
  induction ms with
  | nil => intro best found; rfl
  | cons m ms ih =>
    intro best found
    simp only [rootLoopGen, List.map_cons, List.foldl_cons, true_and, Bool.true_eq_false,
      false_and, if_false]
    by_cases hle : best ≤ value m
    · rw [if_pos hle, ih (value m) m, max_eq_right hle]
      refine Prod.ext rfl ?_
      unfold lastAttaining
      rw [List.filter_cons]
      by_cases hpm : value m = (List.map value ms).foldl max (value m)
      · rw [if_pos (by simp [← hpm]), getLast?_cons_getD]
      · rw [if_neg (by simp [hpm])]
        rcases Score.foldl_max_attain (List.map value ms) (value m) with h | h
        · exact absurd h.symm hpm
        · rcases List.mem_map.mp h with ⟨x, hx, hvx⟩
          have hmem : x ∈ ms.filter
              (fun y => decide (value y = (List.map value ms).foldl max (value m))) :=
            List.mem_filter.mpr ⟨hx, by simp [hvx]⟩
          cases hlast : (ms.filter
              (fun y => decide (value y = (List.map value ms).foldl max (value m)))).getLast? with
          | none =>
            rw [List.getLast?_eq_none_iff] at hlast
            rw [hlast] at hmem
            simp at hmem
          | some y => rfl
    · rw [if_neg hle, ih best found,
        max_eq_left (le_of_lt (lt_of_not_le hle))]
      refine Prod.ext rfl ?_
      unfold lastAttaining
      rw [List.filter_cons]
      have hpm : value m ≠ (List.map value ms).foldl max best := by
        intro hc
        exact hle (le_trans (Score.le_foldl_max (List.map value ms) best) (le_of_eq hc.symm))
      rw [if_neg (by simp [hpm])]

/-- The minimizing root loop, symmetric to `rootLoopGen_max_char`. -/
theorem rootLoopGen_min_char {M : Type} (value : M → Score) :
    ∀ (ms : List M) (best : Score) (found : M),
      rootLoopGen value false ms best found =
        ((ms.map value).foldl min best,
          (lastAttaining value ((ms.map value).foldl min best) ms).getD found) := by
  intro ms
  induction ms with
  | nil => intro best found; rfl
  | cons m ms ih =>
    intro best found
    simp only [rootLoopGen, List.map_cons, List.foldl_cons, Bool.false_eq_true, false_and,
      if_false, true_and]
    by_cases hle : value m ≤ best
    · rw [if_pos hle, ih (value m) m, min_eq_right hle]
      refine Prod.ext rfl ?_
      unfold lastAttaining
      rw [List.filter_cons]
      by_cases hpm : value m = (List.map value ms).foldl min (value m)
      · rw [if_pos (by simp [← hpm]), getLast?_cons_getD]
      · rw [if_neg (by simp [hpm])]
        rcases Score.foldl_min_attain (List.map value ms) (value m) with h | h
        · exact absurd h.symm hpm
        · rcases List.mem_map.mp h with ⟨x, hx, hvx⟩
          have hmem : x ∈ ms.filter
              (fun y => decide (value y = (List.map value ms).foldl min (value m))) :=
            List.mem_filter.mpr ⟨hx, by simp [hvx]⟩
          cases hlast : (ms.filter
              (fun y => decide (value y = (List.map value ms).foldl min (value m)))).getLast? with
          | none =>
            rw [List.getLast?_eq_none_iff] at hlast
            rw [hlast] at hmem
            simp at hmem
          | some y => rfl
    · rw [if_neg hle, ih best found,
        min_eq_left (le_of_lt (lt_of_not_le hle))]
      refine Prod.ext rfl ?_
      unfold lastAttaining
      rw [List.filter_cons]
      have hpm : value m ≠ (List.map value ms).foldl min best := by
        intro hc
        exact hle (le_trans (le_of_eq hc) (Score.foldl_min_le (List.map value ms) best))
      rw [if_neg (by simp [hpm])]

/-- C8 counterexample: in `cg8`, White to move at the root and both root
moves tie at the maximal branch value `7`; `minimax_root` returns the SECOND
move, not the first — the non-strict update comparisons of lines 153 and 156
(`value >= best_move` / `value <= best_move`) make the last tying move win. -/
theorem minimax_root_tie_c8_counterexample :
    cg8.orderedMoves 0 = [1, 2] ∧
    branchValueSpec cg8 1 0 1 = Score.fin 7 ∧
    branchValueSpec cg8 1 0 2 = Score.fin 7 ∧
    minimax_root_pair cg8 1 0 = some (Score.fin 7, 2) :=
  ⟨rfl, by decide, by decide, by decide⟩

/-- C8 amended: `minimax_root` returns the move whose evaluated score is
maximal when the side to move is White and minimal otherwise, and among moves
whose scores tie at that extremum it returns the LAST such move in the order
produced by the Move Orderer (not the first: the update comparison is
non-strict). -/
theorem minimax_root_selection_c8_amended {P M : Type} (g : Game P M) (d : ℕ)
    (pos : P) (h : g.orderedMoves pos ≠ []) :
    ∃ m : M,
      lastAttaining (branchValueSpec g d pos) (rootExtremum g d pos)
        (g.orderedMoves pos) = some m ∧
      minimax_root_pair g d pos = some (rootExtremum g d pos, m) := by
  rw [root_pair_factors]
  unfold selectRoot rootExtremum
  cases hm : g.orderedMoves pos with
  | nil => exact absurd hm h
  | cons m0 rest =>
    cases ht : g.turnWhite pos with
    | true =>
      simp only [if_true]
      rw [rootLoopGen_max_char]
      have hex : ∃ x ∈ m0 :: rest,
          branchValueSpec g d pos x =
            (List.map (branchValueSpec g d pos) (m0 :: rest)).foldl max Score.negInf := by
        rcases Score.foldl_max_attain
            (List.map (branchValueSpec g d pos) (m0 :: rest)) Score.negInf with hB | hB
        · have h0 : branchValueSpec g d pos m0 ≤ Score.negInf := by
            rw [← hB]
            exact Score.elem_le_foldl_max _ Score.negInf _
              (List.mem_map_of_mem (branchValueSpec g d pos) (List.mem_cons_self m0 rest))
          exact ⟨m0, List.mem_cons_self m0 rest,
            ((Score.le_negInf_iff _).mp h0).trans hB.symm⟩
        · rcases List.mem_map.mp hB with ⟨x, hx, hvx⟩
          exact ⟨x, hx, hvx⟩
      rcases lastAttaining_isSome (branchValueSpec g d pos) _ (m0 :: rest) hex with ⟨y, hy⟩
      exact ⟨y, hy, by rw [hy]; rfl⟩
    | false =>
      simp only [Bool.false_eq_true, if_false]
      rw [rootLoopGen_min_char]
      have hex : ∃ x ∈ m0 :: rest,
          branchValueSpec g d pos x =
            (List.map (branchValueSpec g d pos) (m0 :: rest)).foldl min Score.posInf := by
        rcases Score.foldl_min_attain
            (List.map (branchValueSpec g d pos) (m0 :: rest)) Score.posInf with hB | hB
        · have h0 : Score.posInf ≤ branchValueSpec g d pos m0 := by
            rw [← hB]
            exact Score.foldl_min_le_elem _ Score.posInf _
              (List.mem_map_of_mem (branchValueSpec g d pos) (List.mem_cons_self m0 rest))
          exact ⟨m0, List.mem_cons_self m0 rest,
            ((Score.posInf_le_iff _).mp h0).trans hB.symm⟩
        · rcases List.mem_map.mp hB with ⟨x, hx, hvx⟩
          exact ⟨x, hx, hvx⟩
      rcases lastAttaining_isSome (branchValueSpec g d pos) _ (m0 :: rest) hex with ⟨y, hy⟩
      exact ⟨y, hy, by rw [hy]; rfl⟩

theorem minimax_root_selection_c8_witness :
    cg8.orderedMoves 0 ≠ [] ∧
    ∃ m : ℕ,
      lastAttaining (branchValueSpec cg8 1 0) (rootExtremum cg8 1 0)
        (cg8.orderedMoves 0) = some m ∧
      minimax_root_pair cg8 1 0 = some (rootExtremum cg8 1 0, m) :=
  ⟨by decide, minimax_root_selection_c8_amended cg8 1 0 (by decide)⟩

/-!
## Claim C1: pruning versus full-width search

The pruned and the full-width root computations can disagree: the
mate-distance adjustment is applied to each child's return value while the
child was searched with the parent's unadjusted window, so a cutoff taken
against an adjusted sibling bound can hide a strictly better line.  `cg1`
exhibits this: the pruned root and the full-width root select different
moves with different scores.

Pruning equivalence does hold whenever the adjustment never fires — when no
searched position is checkmate and every leaf evaluation has magnitude at
most `MATE_THRESHOLD` (so every score met by the search is either such a
bounded integer or one of the infinities, on which the adjustment is the
identity).  The proof is the classical fail-soft alpha-beta bound argument:
`minimax_km` shows that a pruned value that lands strictly inside its window
is exact, a fail-low value is an upper bound, and a fail-high value a lower
bound; with the full window at each root branch this forces equality.
-/

/-- Scores on which the mate adjustment cannot fire meaningfully: an
infinity, or an integer of magnitude at most `MATE_THRESHOLD`. -/
def ScoreOK (s : Score) : Prop :=
  s = Score.negInf ∨ s = Score.posInf ∨
    ∃ n : ℤ, s = Score.fin n ∧ -MATE_THRESHOLD ≤ n ∧ n ≤ MATE_THRESHOLD

theorem adjustMate_eq_of_ok {s : Score} (h : ScoreOK s) : adjustMate s = s := by
  rcases h with rfl | rfl | ⟨n, rfl, h1, h2⟩
  · decide
  · decide
  · rw [adjustMate, if_neg (by rw [Score.fin_lt_fin]; omega),
      if_neg (by rw [Score.fin_lt_fin]; omega)]

theorem ScoreOK_adjustMate {s : Score} (h : ScoreOK s) : ScoreOK (adjustMate s) := by
  rw [adjustMate_eq_of_ok h]; exact h

theorem ScoreOK_max {a b : Score} (ha : ScoreOK a) (hb : ScoreOK b) :
    ScoreOK (max a b) := by
  rcases max_choice a b with h | h <;> rw [h] <;> assumption

theorem ScoreOK_min {a b : Score} (ha : ScoreOK a) (hb : ScoreOK b) :
    ScoreOK (min a b) := by
  rcases min_choice a b with h | h <;> rw [h] <;> assumption

theorem ScoreOK_zero : ScoreOK (Score.fin 0) :=
  Or.inr (Or.inr ⟨0, rfl, by norm_num [MATE_THRESHOLD], by norm_num [MATE_THRESHOLD]⟩)

theorem ScoreOK_negInf : ScoreOK Score.negInf := Or.inl rfl

theorem ScoreOK_posInf : ScoreOK Score.posInf := Or.inr (Or.inl rfl)

theorem maxLoop_ok {M : Type} (child : M → Score → Score) (beta : Score)
    (hchild : ∀ (m : M) (a : Score), ScoreOK (child m a)) :
    ∀ (ms : List M) (best alpha : Score), ScoreOK best →
      ScoreOK (maxLoop child beta ms best alpha) := by
  intro ms
  induction ms with
  | nil => intro best alpha hb; exact hb
  | cons m ms ih =>
    intro best alpha hb
    simp only [maxLoop]
    have hb1 : ScoreOK (max best (adjustMate (child m alpha))) :=
      ScoreOK_max hb (ScoreOK_adjustMate (hchild m alpha))
    split_ifs
    · exact hb1
    · exact ih _ _ hb1

theorem minLoop_ok {M : Type} (child : M → Score → Score) (alpha : Score)
    (hchild : ∀ (m : M) (b : Score), ScoreOK (child m b)) :
    ∀ (ms : List M) (best beta : Score), ScoreOK best →
      ScoreOK (minLoop child alpha ms best beta) := by
  intro ms
  induction ms with
  | nil => intro best beta hb; exact hb
  | cons m ms ih =>
    intro best beta hb
    simp only [minLoop]
    have hb1 : ScoreOK (min best (adjustMate (child m beta))) :=
      ScoreOK_min hb (ScoreOK_adjustMate (hchild m beta))
    split_ifs
    · exact hb1
    · exact ih _ _ hb1

theorem minimax_ok {P M : Type} (g : Game P M)
    (Hc : ∀ p, g.isCheckmate p = false)
    (He : ∀ p, -MATE_THRESHOLD ≤ g.evaluate p ∧ g.evaluate p ≤ MATE_THRESHOLD) :
    ∀ (d : ℕ) (pos : P) (alpha beta : Score) (maxi : Bool),
      ScoreOK (minimax g d pos alpha beta maxi) := by
  intro d
  induction d with
  | zero =>
    intro pos alpha beta maxi
    simp only [minimax, Hc pos, Bool.false_eq_true, if_false]
    split_ifs
    · exact ScoreOK_zero
    · exact Or.inr (Or.inr ⟨_, rfl, (He pos).1, (He pos).2⟩)
  | succ d ih =>
    intro pos alpha beta maxi
    simp only [minimax, Hc pos, Bool.false_eq_true, if_false]
    split_ifs
    · exact ScoreOK_zero
    · exact maxLoop_ok _ beta (fun m a => ih (g.push pos m) a beta false) _
        Score.negInf alpha ScoreOK_negInf
    · exact minLoop_ok _ alpha (fun m b => ih (g.push pos m) alpha b true) _
        Score.posInf beta ScoreOK_posInf

theorem fullMinimax_ok {P M : Type} (g : Game P M)
    (Hc : ∀ p, g.isCheckmate p = false)
    (He : ∀ p, -MATE_THRESHOLD ≤ g.evaluate p ∧ g.evaluate p ≤ MATE_THRESHOLD) :
    ∀ (d : ℕ) (pos : P) (maxi : Bool), ScoreOK (fullMinimax g d pos maxi) := by
  intro d
  induction d with
  | zero =>
    intro pos maxi
    simp only [fullMinimax, Hc pos, Bool.false_eq_true, if_false]
    split_ifs
    · exact ScoreOK_zero
    · exact Or.inr (Or.inr ⟨_, rfl, (He pos).1, (He pos).2⟩)
  | succ d ih =>
    intro pos maxi
    simp only [fullMinimax, Hc pos, Bool.false_eq_true, if_false]
    split_ifs
    · exact ScoreOK_zero
    · rcases Score.foldl_max_attain
          ((g.orderedMoves pos).map (fun m => adjustMate (fullMinimax g d (g.push pos m) (!maxi))))
          Score.negInf with h | h
      · rw [h]; exact ScoreOK_negInf
      · rcases List.mem_map.mp h with ⟨m, _, hm⟩
        rw [← hm]
        exact ScoreOK_adjustMate (ih (g.push pos m) (!maxi))
    · rcases Score.foldl_min_attain
          ((g.orderedMoves pos).map (fun m => adjustMate (fullMinimax g d (g.push pos m) (!maxi))))
          Score.posInf with h | h
      · rw [h]; exact ScoreOK_posInf
      · rcases List.mem_map.mp h with ⟨m, _, hm⟩
        rw [← hm]
        exact ScoreOK_adjustMate (ih (g.push pos m) (!maxi))

theorem Score.foldl_max_pull (l : List Score) :
    ∀ a b : Score, List.foldl max (max a b) l = max b (List.foldl max a l) := by
  induction l with
  | nil => intro a b; exact max_comm a b
  | cons x xs ih =>
    intro a b
    simp only [List.foldl_cons]
    rw [show max (max a b) x = max (max a x) b by
      rw [max_assoc, max_comm b x, ← max_assoc], ih]

theorem Score.foldl_min_pull (l : List Score) :
    ∀ a b : Score, List.foldl min (min a b) l = min b (List.foldl min a l) := by
  induction l with
  | nil => intro a b; exact min_comm a b
  | cons x xs ih =>
    intro a b
    simp only [List.foldl_cons]
    rw [show min (min a b) x = min (min a x) b by
      rw [min_assoc, min_comm b x, ← min_assoc], ih]

theorem maxLoop_ge_best {M : Type} (child : M → Score → Score) (beta : Score) :
    ∀ (ms : List M) (best alpha : Score), best ≤ maxLoop child beta ms best alpha := by
  intro ms
  induction ms with
  | nil => intro best alpha; exact le_refl best
  | cons m ms ih =>
    intro best alpha
    simp only [maxLoop]
    split_ifs
    · exact le_max_left _ _
    · exact le_trans (le_max_left _ _) (ih _ _)

theorem minLoop_le_best {M : Type} (child : M → Score → Score) (alpha : Score) :
    ∀ (ms : List M) (best beta : Score), minLoop child alpha ms best beta ≤ best := by
  intro ms
  induction ms with
  | nil => intro best beta; exact le_refl best
  | cons m ms ih =>
    intro best beta
    simp only [minLoop]
    split_ifs
    · exact min_le_left _ _
    · exact le_trans (ih _ _) (min_le_left _ _)

/-- The fail-soft bound relation between a pruned value `r` and the exact
value `v` for the window `(alpha, beta)`: a fail-low `r` is an upper bound on
`v`, a fail-high `r` is a lower bound, and an `r` strictly inside the window
is exact. -/
def KM3 (r v alpha beta : Score) : Prop :=
  (r ≤ alpha → v ≤ r) ∧ (beta ≤ r → r ≤ v) ∧ (alpha < r → r < beta → r = v)

theorem KM3_of_eq {r v alpha beta : Score} (h : r = v) : KM3 r v alpha beta :=
  ⟨fun _ => le_of_eq h.symm, fun _ => le_of_eq h, fun _ _ => h⟩

/-- Fail-soft bound for the maximizing loop: if every child satisfies the
bound relation for every subwindow `(a, beta)`, so does the loop result
against the unpruned fold of the exact child values. -/
theorem maxLoop_km {M : Type} (beta : Score) (child : M → Score → Score) (V : M → Score)
    (hchild : ∀ (m : M) (a : Score), a < beta → KM3 (adjustMate (child m a)) (V m) a beta) :
    ∀ (ms : List M) (best alpha : Score), best ≤ alpha → alpha < beta →
      KM3 (maxLoop child beta ms best alpha)
        (List.foldl max best (ms.map V)) alpha beta := by
  intro ms
  induction ms with
  | nil => intro best alpha _ _; exact KM3_of_eq rfl
  | cons m ms ih =>
    intro best alpha hba hab
    simp only [maxLoop, List.map_cons, List.foldl_cons, Score.foldl_max_pull]
    set q := adjustMate (child m alpha) with hq_def
    set F := List.foldl max best (List.map V ms) with hF_def
    have hq : KM3 q (V m) alpha beta := hchild m alpha hab
    have halpha1 : max alpha (max best q) = max alpha q := by
      rw [← max_assoc, max_eq_left hba]
    by_cases hcut : beta ≤ max alpha (max best q)
    · rw [if_pos hcut]
      have hq2 : beta ≤ q := by
        rw [halpha1] at hcut
        rcases max_choice alpha q with h | h
        · rw [h] at hcut; exact absurd hcut (not_le.mpr hab)
        · rw [h] at hcut; exact hcut
      have hrq : max best q = q :=
        max_eq_right (le_trans hba (le_trans (le_of_lt hab) hq2))
      rw [hrq]
      refine ⟨fun hra => ?_, fun _ => ?_, fun _ hrb => ?_⟩
      · exact absurd (le_trans hq2 hra) (not_le.mpr hab)
      · exact le_trans (hq.2.1 hq2) (le_max_left _ _)
      · exact absurd hq2 (not_le.mpr hrb)
    · rw [if_neg hcut, halpha1]
      rw [halpha1] at hcut
      have h2 : max alpha q < beta := lt_of_not_le hcut
      have h1 : max best q ≤ max alpha q := max_le_max hba (le_refl q)
      have rIH := ih (max best q) (max alpha q) h1 h2
      rw [Score.foldl_max_pull] at rIH
      have hq_le_r : q ≤ maxLoop child beta ms (max best q) (max alpha q) :=
        le_trans (le_max_right best q) (maxLoop_ge_best child beta ms _ _)
      by_cases hqa : q ≤ alpha
      · have hVq : V m ≤ q := hq.1 hqa
        have halpha : max alpha q = alpha := max_eq_left hqa
        rw [halpha] at rIH h2 hq_le_r ⊢
        refine ⟨fun hra => ?_, fun hrb => ?_, fun har hrb => ?_⟩
        · exact le_trans (max_le_max hVq (le_refl F)) (rIH.1 hra)
        · have hrG : maxLoop child beta ms (max best q) alpha ≤ max q F := rIH.2.1 hrb
          rcases max_choice q F with h | h
          · rw [h] at hrG
            exact absurd (le_trans hrb (le_trans hrG hqa)) (not_le.mpr hab)
          · rw [h] at hrG
            exact le_trans hrG (le_max_right _ _)
        · have hrG := rIH.2.2 har hrb
          rcases max_choice q F with h | h
          · rw [h] at hrG
            exact absurd har (not_lt.mpr (le_trans (le_of_eq hrG) hqa))
          · rw [h] at hrG
            have hVF : V m ≤ F :=
              le_trans hVq (le_trans hqa (le_of_lt (lt_of_lt_of_le har (le_of_eq hrG))))
            rw [hrG, max_eq_right hVF]
      · have haq : alpha < q := lt_of_not_le hqa
        have halpha : max alpha q = q := max_eq_right (le_of_lt haq)
        rw [halpha] at rIH h2 hq_le_r ⊢
        have hqVm : q = V m := hq.2.2 haq h2
        refine ⟨fun hra => ?_, fun hrb => ?_, fun har hrb => ?_⟩
        · exact absurd (lt_of_lt_of_le haq (le_trans hq_le_r hra)) (lt_irrefl alpha)
        · rw [← hqVm]
          exact rIH.2.1 hrb
        · by_cases hr1 : maxLoop child beta ms (max best q) q ≤ q
          · have hrq : maxLoop child beta ms (max best q) q = q := le_antisymm hr1 hq_le_r
            rw [hrq, ← hqVm]
            exact le_antisymm (le_max_left _ _) (le_trans (rIH.1 hr1) (le_of_eq hrq))
          · rw [← hqVm]
            exact rIH.2.2 (lt_of_not_le hr1) hrb

/-- Fail-soft bound for the minimizing loop, symmetric to `maxLoop_km`. -/
theorem minLoop_km {M : Type} (alpha : Score) (child : M → Score → Score) (V : M → Score)
    (hchild : ∀ (m : M) (b : Score), alpha < b → KM3 (adjustMate (child m b)) (V m) alpha b) :
    ∀ (ms : List M) (best beta : Score), beta ≤ best → alpha < beta →
      KM3 (minLoop child alpha ms best beta)
        (List.foldl min best (ms.map V)) alpha beta := by
  intro ms
  induction ms with
  | nil => intro best beta _ _; exact KM3_of_eq rfl
  | cons m ms ih =>
    intro best beta hbb hab
    simp only [minLoop, List.map_cons, List.foldl_cons, Score.foldl_min_pull]
    set q := adjustMate (child m beta) with hq_def
    set F := List.foldl min best (List.map V ms) with hF_def
    have hq : KM3 q (V m) alpha beta := hchild m beta hab
    have hbeta1 : min beta (min best q) = min beta q := by
      rw [← min_assoc, min_eq_left hbb]
    by_cases hcut : min beta (min best q) ≤ alpha
    · rw [if_pos hcut]
      rw [hbeta1] at hcut
      have hq2 : q ≤ alpha := by
        rcases min_choice beta q with h | h
        · rw [h] at hcut; exact absurd hcut (not_le.mpr hab)
        · rw [h] at hcut; exact hcut
      have hrq : min best q = q :=
        min_eq_right (le_trans hq2 (le_trans (le_of_lt hab) hbb))
      rw [hrq]
      refine ⟨fun _ => ?_, fun hrb => ?_, fun har _ => ?_⟩
      · exact le_trans (min_le_left _ _) (hq.1 hq2)
      · exact absurd (le_trans hrb hq2) (not_le.mpr hab)
      · exact absurd hq2 (not_le.mpr har)
    · rw [if_neg hcut, hbeta1]
      rw [hbeta1] at hcut
      have h2 : alpha < min beta q := lt_of_not_le hcut
      have h1 : min beta q ≤ min best q := min_le_min hbb (le_refl q)
      have rIH := ih (min best q) (min beta q) h1 h2
      rw [Score.foldl_min_pull] at rIH
      have hr_le_q : minLoop child alpha ms (min best q) (min beta q) ≤ q :=
        le_trans (minLoop_le_best child alpha ms _ _) (min_le_right best q)
      by_cases hqb : beta ≤ q
      · have hVq : q ≤ V m := hq.2.1 hqb
        have hbeta : min beta q = beta := min_eq_left hqb
        rw [hbeta] at rIH h2 hr_le_q ⊢
        refine ⟨fun hra => ?_, fun hrb => ?_, fun har hrb => ?_⟩
        · have hrG : min q F ≤ minLoop child alpha ms (min best q) beta := rIH.1 hra
          rcases min_choice q F with h | h
          · rw [h] at hrG
            exact absurd (le_trans hqb (le_trans hrG hra)) (not_le.mpr hab)
          · rw [h] at hrG
            exact le_trans (min_le_right _ _) hrG
        · have hrG : minLoop child alpha ms (min best q) beta ≤ min q F := rIH.2.1 hrb
          exact le_min (le_trans hrG (le_trans (min_le_left q F) hVq))
            (le_trans hrG (min_le_right q F))
        · have hrG := rIH.2.2 har hrb
          rcases min_choice q F with h | h
          · rw [h] at hrG
            exact absurd hrb (not_lt.mpr (le_trans hqb (le_of_eq hrG.symm)))
          · rw [h] at hrG
            have hFVm : F ≤ V m :=
              le_of_lt (lt_of_lt_of_le (lt_of_le_of_lt (le_of_eq hrG.symm) hrb)
                (le_trans hqb hVq))
            rw [hrG, min_eq_right hFVm]
      · have hqb1 : q < beta := lt_of_not_le hqb
        have hbeta : min beta q = q := min_eq_right (le_of_lt hqb1)
        rw [hbeta] at rIH h2 hr_le_q ⊢
        have hqVm : q = V m := hq.2.2 h2 hqb1
        refine ⟨fun hra => ?_, fun hrb => ?_, fun har hrb => ?_⟩
        · rw [← hqVm]
          exact rIH.1 hra
        · exact absurd (lt_of_le_of_lt (le_trans hrb hr_le_q) hqb1) (lt_irrefl beta)
        · by_cases hr1 : q ≤ minLoop child alpha ms (min best q) q
          · have hrq : minLoop child alpha ms (min best q) q = q :=
              le_antisymm hr_le_q hr1
            rw [hrq, ← hqVm]
            exact le_antisymm (le_trans (le_of_eq hrq.symm) (rIH.2.1 hr1)) (min_le_left _ _)
          · rw [← hqVm]
            exact rIH.2.2 har (lt_of_not_le hr1)

/-- The fail-soft bound between the pruned and the unpruned search, at every
window, when no checkmate occurs and leaf evaluations are bounded by
`MATE_THRESHOLD` (so the mate adjustment is the identity on every score the
search produces). -/
theorem minimax_km {P M : Type} (g : Game P M)
    (Hc : ∀ p, g.isCheckmate p = false)
    (He : ∀ p, -MATE_THRESHOLD ≤ g.evaluate p ∧ g.evaluate p ≤ MATE_THRESHOLD) :
    ∀ (d : ℕ) (pos : P) (maxi : Bool) (alpha beta : Score), alpha < beta →
      KM3 (minimax g d pos alpha beta maxi) (fullMinimax g d pos maxi) alpha beta := by
  intro d
  induction d with
  | zero =>
    intro pos maxi alpha beta _
    exact KM3_of_eq (by simp [minimax, fullMinimax])
  | succ d ih =>
    intro pos maxi alpha beta hab
    by_cases hgo : g.isGameOver pos = true
    · exact KM3_of_eq (by simp [minimax, fullMinimax, Hc pos, hgo])
    · rw [Bool.not_eq_true] at hgo
      cases maxi with
      | true =>
        have e1 : minimax g (d + 1) pos alpha beta true =
            maxLoop (fun m a => minimax g d (g.push pos m) a beta false) beta
              (g.orderedMoves pos) Score.negInf alpha := by
          simp [minimax, Hc pos, hgo]
        have e2 : fullMinimax g (d + 1) pos true =
            List.foldl max Score.negInf
              ((g.orderedMoves pos).map
                (fun m => adjustMate (fullMinimax g d (g.push pos m) false))) := by
          simp [fullMinimax, Hc pos, hgo]
        rw [e1, e2]
        exact maxLoop_km beta _
          (fun m => adjustMate (fullMinimax g d (g.push pos m) false))
          (fun m a ha => by
            show KM3 (adjustMate (minimax g d (g.push pos m) a beta false))
              (adjustMate (fullMinimax g d (g.push pos m) false)) a beta
            rw [adjustMate_eq_of_ok (minimax_ok g Hc He d (g.push pos m) a beta false),
              adjustMate_eq_of_ok (fullMinimax_ok g Hc He d (g.push pos m) false)]
            exact ih (g.push pos m) false a beta ha)
          (g.orderedMoves pos) Score.negInf alpha (Score.negInf_le alpha) hab
      | false =>
        have e1 : minimax g (d + 1) pos alpha beta false =
            minLoop (fun m b => minimax g d (g.push pos m) alpha b true) alpha
              (g.orderedMoves pos) Score.posInf beta := by
          simp [minimax, Hc pos, hgo]
        have e2 : fullMinimax g (d + 1) pos false =
            List.foldl min Score.posInf
              ((g.orderedMoves pos).map
                (fun m => adjustMate (fullMinimax g d (g.push pos m) true))) := by
          simp [fullMinimax, Hc pos, hgo]
        rw [e1, e2]
        exact minLoop_km alpha _
          (fun m => adjustMate (fullMinimax g d (g.push pos m) true))
          (fun m b hb => by
            show KM3 (adjustMate (minimax g d (g.push pos m) alpha b true))
              (adjustMate (fullMinimax g d (g.push pos m) true)) alpha b
            rw [adjustMate_eq_of_ok (minimax_ok g Hc He d (g.push pos m) alpha b true),
              adjustMate_eq_of_ok (fullMinimax_ok g Hc He d (g.push pos m) true)]
            exact ih (g.push pos m) true alpha b hb)
          (g.orderedMoves pos) Score.posInf beta (Score.le_posInf beta) hab

/-- With the full window, the pruned search computes exactly the unpruned
full-width value (under the no-mate-scores hypotheses). -/
theorem minimax_full_window {P M : Type} (g : Game P M)
    (Hc : ∀ p, g.isCheckmate p = false)
    (He : ∀ p, -MATE_THRESHOLD ≤ g.evaluate p ∧ g.evaluate p ≤ MATE_THRESHOLD)
    (d : ℕ) (pos : P) (maxi : Bool) :
    minimax g d pos Score.negInf Score.posInf maxi = fullMinimax g d pos maxi := by
  have km := minimax_km g Hc He d pos maxi Score.negInf Score.posInf Score.negInf_lt_posInf
  by_cases h1 : minimax g d pos Score.negInf Score.posInf maxi ≤ Score.negInf
  · have hr := (Score.le_negInf_iff _).mp h1
    have hv := km.1 h1
    rw [hr] at hv ⊢
    exact ((Score.le_negInf_iff _).mp hv).symm
  · by_cases h2 : Score.posInf ≤ minimax g d pos Score.negInf Score.posInf maxi
    · have hr := (Score.posInf_le_iff _).mp h2
      have hv := km.2.1 h2
      rw [hr] at hv ⊢
      exact ((Score.posInf_le_iff _).mp hv).symm
    · exact km.2.2 (lt_of_not_le h1) (lt_of_not_le h2)

/-- Under the no-mate-scores hypotheses, the pruned root loop and the
full-width root loop coincide. -/
theorem rootLoopImpl_eq_full {P M : Type} (g : Game P M)
    (Hc : ∀ p, g.isCheckmate p = false)
    (He : ∀ p, -MATE_THRESHOLD ≤ g.evaluate p ∧ g.evaluate p ≤ MATE_THRESHOLD)
    (d : ℕ) (pos : P) (mz : Bool) :
    ∀ (ms : List M) (best : Score) (found : M),
      rootLoopImpl g d pos mz ms best found = fullRootLoop g d pos mz ms best found := by
  intro ms
  induction ms with
  | nil => intro best found; rfl
  | cons m ms ih =>
    intro best found
    simp only [rootLoopImpl, fullRootLoop]
    rw [show (if g.canClaimDraw (g.push pos m) then Score.fin 0
        else minimax g (d - 1) (g.push pos m) Score.negInf Score.posInf (!mz)) =
        (if g.canClaimDraw (g.push pos m) then Score.fin 0
        else fullMinimax g (d - 1) (g.push pos m) (!mz)) from by
      by_cases hd : g.canClaimDraw (g.push pos m) <;>
        simp [hd, minimax_full_window g Hc He]]
    split_ifs <;> exact ih _ _

/-- C1 counterexample: on the game `cg1` at depth `3`, the alpha-beta root
search and the unpruned full-width root search select DIFFERENT moves with
DIFFERENT scores.  The mate-distance adjustment is applied to child returns
while the recursive windows are passed unadjusted, so a cutoff taken against
an adjusted bound can hide a line the full search sees. -/
theorem pruning_equivalence_c1_counterexample :
    minimax_root_pair cg1 3 0 = some (Score.fin (-999000007), 2) ∧
    fullRoot_pair cg1 3 0 = some (Score.fin (-999000008), 1) ∧
    minimax_root_pair cg1 3 0 ≠ fullRoot_pair cg1 3 0 :=
  ⟨by decide, by decide, by decide⟩

/-- C1 amended: provided the mate-distance adjustment never fires — no
searched position is checkmate and every Static Evaluator score has magnitude
at most `MATE_THRESHOLD` — the move and the score selected by the alpha-beta
root search equal those selected by the unpruned full-width minimax of the
same depth with the same move ordering.  (With mate-magnitude scores in the
tree the equivalence fails: see the counterexample.) -/
theorem pruning_equivalence_c1_amended {P M : Type} (g : Game P M) (d : ℕ) (pos : P)
    (Hc : ∀ p, g.isCheckmate p = false)
    (He : ∀ p, -MATE_THRESHOLD ≤ g.evaluate p ∧ g.evaluate p ≤ MATE_THRESHOLD) :
    minimax_root_pair g d pos = fullRoot_pair g d pos := by
  unfold minimax_root_pair fullRoot_pair
  cases hm : g.orderedMoves pos with
  | nil => rfl
  | cons m0 rest =>
    exact congrArg some (rootLoopImpl_eq_full g Hc He d pos _ (m0 :: rest) _ m0)

theorem pruning_equivalence_c1_witness :
    (∀ p : ℕ, cg8.isCheckmate p = false) ∧
    (∀ p : ℕ, -MATE_THRESHOLD ≤ cg8.evaluate p ∧ cg8.evaluate p ≤ MATE_THRESHOLD) ∧
    minimax_root_pair cg8 2 0 = fullRoot_pair cg8 2 0 :=
  ⟨fun _ => rfl,
    fun _ => ⟨by show (-MATE_THRESHOLD : ℤ) ≤ 7; decide, by show (7 : ℤ) ≤ MATE_THRESHOLD; decide⟩,
    pruning_equivalence_c1_amended cg8 2 0 (fun _ => rfl)
      (fun _ => ⟨by show (-MATE_THRESHOLD : ℤ) ≤ 7; decide, by show (7 : ℤ) ≤ MATE_THRESHOLD; decide⟩)⟩
